import Mathlib

/-!
# Verification of the PyLDM global-analysis fitting core (`pyldm/fit/svd_ga.py`)

Shallow embedding of the separable nonlinear least-squares engine of PyLDM:

* `_genD`        — decay-matrix generator (`genD`, `genDEntry`, `decayConv`);
* `_getDAS`      — QR + back-substitution ridge solver (`getDAS`, `backsub`);
* `_min`         — scalar residual objective (`minObj`, `resid`);
* `_GA`/`Global` — optimizer driver and result packaging (`GA`, `Global`);
* `_get_wLSVs_for_fit` — spectral-column selection (`get_wLSVs_for_fit`).

Matrices are modelled as total functions `ℕ → ℕ → ℝ` together with explicit
dimension arguments; only the entries inside the stated bounds are meaningful
(NumPy arrays carry their bounds implicitly).  Floating-point arithmetic is
modelled by exact real arithmetic.  External library routines
(`scipy.special.erf`, `np.linalg.qr`, `scipy.optimize.minimize`) are modelled
by a concrete integral definition, respectively by oracle parameters that the
theorems constrain through the routines' documented contracts.
-/

namespace PyLDM

noncomputable section

open Finset

/-- Model of `scipy.special.erf`: the Gauss error function
`erf x = (2/√π) ∫ t in 0..x, exp (-t²)`. -/
def erf (x : ℝ) : ℝ :=
  (2 / Real.sqrt Real.pi) * ∫ t in (0:ℝ)..x, Real.exp (-(t ^ 2))

/-- `erf 0 = 0` (integral over an empty interval). -/
theorem erf_zero : erf 0 = 0 := by
  simp [erf, intervalIntegral.integral_same]

/-- FWHM → Gaussian-sigma-equivalent conversion `fwhm / (2·√(ln 2))`, as in
`updateData` (`self.FWHM/(2*np.log(2)**0.5)`) and in `_genD`
(`fwhm/(2*sqrt(log(2)))`). -/
def toSigma (fwhm : ℝ) : ℝ := fwhm / (2 * Real.sqrt (Real.log 2))

/-- One entry of the convolved decay model, exactly as computed in `_genD`:
`One = 0.5*(exp(-t/tau)*exp(w**2/(2*tau))/tau)`,
`Two = 1 + erf((t-(w**2/tau))/(sqrt(2)*w))`, entry `= One*Two`.
Note the Gaussian exponent uses denominator `2*tau` (as in the source),
not `2*tau^2`. -/
def decayConv (w t tau : ℝ) : ℝ :=
  (0.5 * (Real.exp (-t / tau) * Real.exp (w ^ 2 / (2 * tau)) / tau)) *
    (1 + erf ((t - w ^ 2 / tau) / (Real.sqrt 2 * w)))

/-- Per-entry branch logic of `_genD`: when `fit_irf` is set the width
`fwhm_mod` derived from the trailing element of `taus` is used; otherwise the
stored width `FWHM_mod` selects between the convolved model and the pure
exponential `exp(-t/tau)`. -/
def genDEntry (FWHM_mod : ℝ) (fit_irf : Bool) (fwhm_mod t tau : ℝ) : ℝ :=
  if fit_irf then decayConv fwhm_mod t tau
  else if FWHM_mod ≠ 0 then decayConv FWHM_mod t tau
  else Real.exp (-t / tau)

/-- Embedding of `SVD_GA._genD(taus, T, fit_irf)`.  Result: entry function,
row count `len(T)`, and column count (`len(taus) - 1` when the IRF width is
being fitted — the trailing entry of `taus` is consumed as the FWHM —
otherwise `len(taus)`).  The function performs no validation of `taus`. -/
def genD (FWHM_mod : ℝ) (taus T : List ℝ) (fit_irf : Bool) :
    (ℕ → ℕ → ℝ) × ℕ × ℕ :=
  if fit_irf then
    ((fun i j => genDEntry FWHM_mod true (toSigma (taus.getLastD 0))
        (T.getD i 0) (taus.getD j 0)),
      T.length, taus.length - 1)
  else
    ((fun i j => genDEntry FWHM_mod false 0 (T.getD i 0) (taus.getD j 0)),
      T.length, taus.length)

/-- With the stored width equal to `0` and `fit_irf = false`, every entry of
the generated decay matrix is the pure exponential. -/
theorem genDEntry_pure (t tau : ℝ) :
    genDEntry 0 false 0 t tau = Real.exp (-t / tau) := by
  simp [genDEntry]

end

/-- C9: whenever the stored sigma-equivalent width `FWHM_mod` equals `0` (and
the generator is called on its stored-width branch, `fit_irf = false`, the
branch claim C10 shows is the only one consulting the stored width), the
generated decay matrix satisfies `D[i,j] = exp(-T[i]/τ_j)` exactly, for every
in-range `i` and `j`. -/
theorem genD_pure_exponential (FWHM_mod : ℝ) (taus T : List ℝ) (i j : ℕ)
    (hF : FWHM_mod = 0) (hi : i < T.length) (hj : j < taus.length) :
    (genD FWHM_mod taus T false).1 i j =
      Real.exp (-(T.getD i 0) / taus.getD j 0) := by
  subst hF
  simp [genD, genDEntry]

/-- Witness for C9: concrete instance `T = [0]`, `taus = [1]`. -/
theorem genD_pure_exponential_witness :
    (genD 0 [(1:ℝ)] [(0:ℝ)] false).1 0 0 = Real.exp (-(0:ℝ) / 1) := by
  have h := genD_pure_exponential 0 [(1:ℝ)] [(0:ℝ)] 0 0 rfl
    (by norm_num) (by norm_num)
  simpa using h

/-- C10: with `fit_irf = true` the pure-exponential branch is unreachable:
every entry is the convolved closed form whose width is the sigma-equivalent
of the trailing element of `taus`; the stored `FWHM_mod` does not occur in the
result (it is a free variable of the statement), and in particular a zero
trailing width does not select the unconvolved branch. -/
theorem genD_fit_irf_convolved (FWHM_mod : ℝ) (taus T : List ℝ) (i j : ℕ)
    (hi : i < T.length) (hj : j < taus.length - 1) :
    (genD FWHM_mod taus T true).1 i j =
      decayConv (toSigma (taus.getLastD 0)) (T.getD i 0) (taus.getD j 0) := by
  simp [genD, genDEntry]

/-- Witness for C10: stored width `5`, trailing (fitted) width `0`: the entry
is still the convolved form at width `toSigma 0`, not the pure exponential. -/
theorem genD_fit_irf_convolved_witness :
    (genD 5 [(1:ℝ), 0] [(0:ℝ)] true).1 0 0 = decayConv (toSigma 0) 0 1 := by
  have h := genD_fit_irf_convolved 5 [(1:ℝ), 0] [(0:ℝ)] 0 0
    (by norm_num) (by norm_num)
  simpa using h

/-- C1: the code's convolved entry disagrees with the specified
exponentially-modified-Gaussian closed form.  At the input
`FWHM_mod = 1`, `t = 1/2`, `tau = 2` (stored-width branch) the code computes
`exp(w²/(2τ))`, giving the entry `1/4` exactly, while the documented formula
`0.5·exp(-t/τ)·exp(w²/(2τ²))/τ·(1 + erf((t − w²/τ)/(√2·w)))` evaluates to
`exp(-1/8)/4 ≠ 1/4`.  The code's exponent `w²/(2τ)` is dimensionally
inconsistent and inconsistent with the `w²/τ` term inside its own `erf`
argument, which matches the `2τ²` derivation. -/
theorem genD_conv_exponent_bug :
    genDEntry 1 false 0 (1/2) 2 = 1/4 ∧
    (0.5 * Real.exp (-(1/2) / 2) * Real.exp (1 ^ 2 / (2 * 2 ^ 2)) / 2) *
        (1 + erf ((1/2 - 1 ^ 2 / 2) / (Real.sqrt 2 * 1))) =
      Real.exp (-(1:ℝ)/8) / 4 ∧
    (1/4 : ℝ) ≠ Real.exp (-(1:ℝ)/8) / 4 := by
  have hE : Real.exp (-(1/2) / 2 : ℝ) * Real.exp ((1:ℝ)/4) = 1 := by
    rw [← Real.exp_add]; norm_num
  refine ⟨?_, ?_, ?_⟩
  · have : genDEntry 1 false 0 (1/2) 2 = decayConv 1 (1/2) 2 := by
      norm_num [genDEntry]
    rw [this]
    have harg : ((1:ℝ)/2 - (1:ℝ) ^ 2 / 2) / (Real.sqrt 2 * 1) = 0 := by
      norm_num
    rw [decayConv]
    norm_num [harg, erf_zero]
    nlinarith [hE]
  · have harg : ((1:ℝ)/2 - (1:ℝ) ^ 2 / 2) / (Real.sqrt 2 * 1) = 0 := by
      norm_num
    rw [harg, erf_zero]
    have : Real.exp (-(1/2) / 2 : ℝ) * Real.exp ((1:ℝ) ^ 2 / (2 * 2 ^ 2)) =
        Real.exp (-(1:ℝ)/8) := by
      rw [← Real.exp_add]; norm_num
    nlinarith [this]
  · intro h
    have h1 : Real.exp (-(1:ℝ)/8) = 1 := by linarith
    have h2 : (-(1:ℝ)/8) = 0 :=
      Real.exp_injective (by simpa [Real.exp_zero] using h1)
    norm_num at h2

/-- C5 (counterexample): the claim "`_genD` fails with a DomainError when some
`τ ≤ 0` is consumed" is false: the source performs no validation and the call
returns a matrix.  At `taus = [-1]`, `T = [1]` the returned entry is the
well-defined positive real `exp 1` (also a finite value in IEEE arithmetic). -/
theorem genD_negative_tau_value :
    (genD 0 [(-1:ℝ)] [(1:ℝ)] false).1 0 0 = Real.exp 1 ∧
      (0:ℝ) < Real.exp 1 := by
  constructor
  · norm_num [genD, genDEntry]
  · exact Real.exp_pos 1

/-- C5 (amended): `_genD` raises nothing on non-positive lifetimes; with the
pure-exponential branch active, a call consuming `τ ≤ 0` simply returns the
matrix with entries `exp(-t/τ)` (finite for `τ < 0`; for `τ = 0` the division
is undefined — non-finite in IEEE arithmetic, modelled here by Lean's
total division). -/
theorem genD_no_domain_error (t tau : ℝ) (htau : tau ≤ 0) :
    (genD 0 [tau] [t] false).1 0 0 = Real.exp (-t / tau) := by
  simp [genD, genDEntry]

/-- Witness for the amended C5 at `τ = -2 ≤ 0`, `t = 3`. -/
theorem genD_no_domain_error_witness :
    (genD 0 [(-2:ℝ)] [(3:ℝ)] false).1 0 0 = Real.exp (3/2) := by
  have h := genD_no_domain_error 3 (-2) (by norm_num)
  rw [h]; norm_num

/-!
## Spectral-column selection (`_get_wLSVs_for_fit`)

The selector string is tokenized and parsed by Python (`.split()` followed by
`map(int, ...)`); the embedding consumes the resulting list of integers.  The
source's `if wLSV_indices is None` branch is unreachable (the result of
`list(map(int, ...))` is never `None`) and has no counterpart here, exactly as
spec §9 notes.  Column slices `wLSV[:, :n]` are represented by the unchanged
entry function paired with the column count `n`.
-/

/-- Embedding of `SVD_GA._get_wLSVs_for_fit`: returns the resolved index list,
the selected matrix, and its column count. -/
noncomputable def get_wLSVs_for_fit (wLSV : ℕ → ℕ → ℝ) (idxs : List ℕ) :
    List ℕ × (ℕ → ℕ → ℝ) × ℕ :=
  if idxs ≠ [] then
    if idxs.length = 1 then (idxs, wLSV, idxs.headD 0)
    else (idxs,
      fun i j => if j < idxs.length then wLSV i (idxs.getD j 0 - 1) else 0,
      idxs.length)
  else ([3], wLSV, 3)

/-- C4: the column-selection step maps an empty selector to the prefix of the
first 3 basis columns, a single integer `n` to the prefix of the first `n`
columns, and multiple integers to exactly those 1-based columns in the given
order (duplicates and unsorted order allowed). -/
theorem selection_policy (wLSV : ℕ → ℕ → ℝ) (idxs : List ℕ)
    (hpos : ∀ x ∈ idxs, 1 ≤ x) :
    (idxs = [] → get_wLSVs_for_fit wLSV idxs = ([3], wLSV, 3)) ∧
    (∀ n : ℕ, idxs = [n] → get_wLSVs_for_fit wLSV idxs = ([n], wLSV, n)) ∧
    (2 ≤ idxs.length →
      (get_wLSVs_for_fit wLSV idxs).1 = idxs ∧
      (get_wLSVs_for_fit wLSV idxs).2.2 = idxs.length ∧
      ∀ i j, j < idxs.length →
        (get_wLSVs_for_fit wLSV idxs).2.1 i j = wLSV i (idxs.getD j 0 - 1)) := by
  refine ⟨?_, ?_, ?_⟩
  · intro h
    subst h
    simp [get_wLSVs_for_fit]
  · intro n h
    subst h
    simp [get_wLSVs_for_fit]
  · intro h2
    have hne : idxs ≠ [] := by
      intro h
      rw [h] at h2
      simp at h2
    have hlen : idxs.length ≠ 1 := by omega
    refine ⟨?_, ?_, ?_⟩
    · simp [get_wLSVs_for_fit, hne, hlen]
    · simp [get_wLSVs_for_fit, hne, hlen]
    · intro i j hj
      simp [get_wLSVs_for_fit, hne, hlen, hj]

/-- Witness for C4: on the two-element selector `[2, 4]` the fit matrix has 2
columns, holding (0-based) columns 1 and 3 of the basis. -/
theorem selection_policy_witness :
    (get_wLSVs_for_fit (fun i j => (i : ℝ) + 10 * j) [2, 4]).2.2 = 2 ∧
    (get_wLSVs_for_fit (fun i j => (i : ℝ) + 10 * j) [2, 4]).2.1 0 0 = 10 ∧
    (get_wLSVs_for_fit (fun i j => (i : ℝ) + 10 * j) [2, 4]).2.1 0 1 = 30 := by
  have h := (selection_policy (fun i j => (i : ℝ) + 10 * j) [2, 4]
    (by decide)).2.2 (by norm_num)
  refine ⟨h.2.1, ?_, ?_⟩
  · have h00 := h.2.2 0 0 (by norm_num)
    simpa using h00
  · have h01 := h.2.2 0 1 (by norm_num)
    rw [h01]
    norm_num

/-!
## Back-substitution (`_getDAS`, lines 101–107)

The source initializes `DAS` to zeros, sets the last row to
`QtY[-1,:]/R[-1,-1]`, and then runs, for `i` from `K-2` down to `0`, an inner
loop over `k` from `i+1` to `K-1` that accumulates `s += R[i,k]*DAS[k,:]` and
reassigns `DAS[i,:] = (QtY[i,:] - s)/R[i,i]` on every inner step.  `innerLoop`
and `outerLoop` below are a literal state-passing rendering of those loops;
`backsubSpec` is the textbook single-assignment-per-row algorithm stated from
the spec's words, for the refinement claim.
-/

/-- Functional update of row `r` of a matrix. -/
def updRow (A : ℕ → ℕ → ℝ) (r : ℕ) (v : ℕ → ℝ) : ℕ → ℕ → ℝ :=
  fun r' n => if r' = r then v n else A r' n

/-- The inner accumulation loop of `_getDAS`: for each `k` in `ks`, add
`R[i,k]*DAS[k,:]` to the running row `s` and immediately reassign row `i`. -/
noncomputable def innerLoop (R Z : ℕ → ℕ → ℝ) (i : ℕ) :
    List ℕ → (ℕ → ℝ) → (ℕ → ℕ → ℝ) → ℕ → ℕ → ℝ
  | [], _, A => A
  | k :: ks, s, A =>
    innerLoop R Z i ks (fun n => s n + R i k * A k n)
      (updRow A i (fun n => (Z i n - (s n + R i k * A k n)) / R i i))

lemma innerLoop_nil (R Z : ℕ → ℕ → ℝ) (i : ℕ) (s : ℕ → ℝ) (A : ℕ → ℕ → ℝ) :
    innerLoop R Z i [] s A = A := rfl

lemma innerLoop_cons (R Z : ℕ → ℕ → ℝ) (i k : ℕ) (ks : List ℕ) (s : ℕ → ℝ)
    (A : ℕ → ℕ → ℝ) :
    innerLoop R Z i (k :: ks) s A =
      innerLoop R Z i ks (fun n => s n + R i k * A k n)
        (updRow A i (fun n => (Z i n - (s n + R i k * A k n)) / R i i)) := rfl

/-- The outer loop of `_getDAS` over the descending row list. -/
noncomputable def outerLoop (R Z : ℕ → ℕ → ℝ) (K : ℕ) :
    List ℕ → (ℕ → ℕ → ℝ) → ℕ → ℕ → ℝ
  | [], A => A
  | i :: rest, A =>
    outerLoop R Z K rest
      (innerLoop R Z i (List.range' (i + 1) (K - (i + 1))) (fun _ => 0) A)

lemma outerLoop_nil (R Z : ℕ → ℕ → ℝ) (K : ℕ) (A : ℕ → ℕ → ℝ) :
    outerLoop R Z K [] A = A := rfl

lemma outerLoop_cons (R Z : ℕ → ℕ → ℝ) (K i : ℕ) (rest : List ℕ)
    (A : ℕ → ℕ → ℝ) :
    outerLoop R Z K (i :: rest) A =
      outerLoop R Z K rest
        (innerLoop R Z i (List.range' (i + 1) (K - (i + 1))) (fun _ => 0) A) := rfl

/-- Embedding of the whole back-substitution block of `_getDAS`: zero
initialization, last row `Z[K-1,:]/R[K-1,K-1]`, then the outer loop over
`[K-2, …, 0]`. -/
noncomputable def backsub (R Z : ℕ → ℕ → ℝ) (K : ℕ) : ℕ → ℕ → ℝ :=
  outerLoop R Z K ((List.range (K - 1)).reverse)
    (updRow (fun _ _ => 0) (K - 1) (fun n => Z (K - 1) n / R (K - 1) (K - 1)))

/-- Textbook back-substitution, stated from the spec's words: starting from
the all-zero matrix, for `m+1 = 1, …, K` assign row `K-(m+1)` once, as
`X[i,:] = (Z[i,:] − Σ_{k>i} R[i,k]·X[k,:]) / R[i,i]`. -/
noncomputable def backsubSpecAux (R Z : ℕ → ℕ → ℝ) (K : ℕ) : ℕ → ℕ → ℕ → ℝ
  | 0 => fun _ _ => 0
  | m + 1 =>
    updRow (backsubSpecAux R Z K m) (K - (m + 1))
      (fun n => (Z (K - (m + 1)) n -
          ∑ k in Finset.Ico (K - (m + 1) + 1) K,
            R (K - (m + 1)) k * backsubSpecAux R Z K m k n) /
        R (K - (m + 1)) (K - (m + 1)))

/-- Textbook back-substitution solution for a `K × K` system. -/
noncomputable def backsubSpec (R Z : ℕ → ℕ → ℝ) (K : ℕ) : ℕ → ℕ → ℝ :=
  backsubSpecAux R Z K K

lemma updRow_same (A : ℕ → ℕ → ℝ) (r : ℕ) (v : ℕ → ℝ) (n : ℕ) :
    updRow A r v r n = v n := by
  simp [updRow]

lemma updRow_ne (A : ℕ → ℕ → ℝ) (r : ℕ) (v : ℕ → ℝ) (r' n : ℕ) (h : r' ≠ r) :
    updRow A r v r' n = A r' n := by
  simp [updRow, h]

/-- Rows other than `i` are untouched by the inner loop. -/
lemma innerLoop_ne (R Z : ℕ → ℕ → ℝ) (i : ℕ) :
    ∀ (ks : List ℕ) (s : ℕ → ℝ) (A : ℕ → ℕ → ℝ) (r : ℕ), r ≠ i → ∀ n,
      innerLoop R Z i ks s A r n = A r n := by
  intro ks
  induction ks with
  | nil => intro s A r hr n; rfl
  | cons k ks ih =>
    intro s A r hr n
    rw [innerLoop_cons, ih _ _ r hr n, updRow_ne _ _ _ _ _ hr]

/-- Sum of a mapped `List.range'` as a `Finset.Ico` sum. -/
lemma range'_map_sum (f : ℕ → ℝ) :
    ∀ (m a : ℕ), ((List.range' a m).map f).sum = ∑ k in Finset.Ico a (a + m), f k := by
  intro m
  induction m with
  | zero => intro a; simp
  | succ m ih =>
    intro a
    rw [List.range'_succ a m 1, List.map_cons, List.sum_cons, ih (a + 1),
      Finset.sum_eq_sum_Ico_succ_bot (by omega : a < a + (m + 1)) f]
    have h1 : a + 1 + m = a + (m + 1) := by omega
    rw [h1]

/-- Final value of row `i` after a nonempty inner loop: the last reassignment
survives, carrying the complete partial sum;  the rows it reads are never
written by the loop, so the running sum uses the entry values of `A`. -/
lemma innerLoop_row (R Z : ℕ → ℕ → ℝ) (i : ℕ) :
    ∀ (ks : List ℕ) (k : ℕ) (s : ℕ → ℝ) (A : ℕ → ℕ → ℝ) (n : ℕ),
      i ∉ (k :: ks) →
      innerLoop R Z i (k :: ks) s A i n =
        (Z i n - (s n + ((k :: ks).map (fun x => R i x * A x n)).sum)) / R i i := by
  intro ks
  induction ks with
  | nil =>
    intro k s A n _
    rw [innerLoop_cons, innerLoop_nil, updRow_same]
    simp
  | cons k' ks ih =>
    intro k s A n hmem
    have hk' : i ∉ (k' :: ks) := by
      intro h; exact hmem (List.mem_cons_of_mem k h)
    rw [innerLoop_cons, ih k' _ _ n hk']
    have hmap : (k' :: ks).map
          (fun x => R i x *
            updRow A i (fun n' => (Z i n' - (s n' + R i k * A k n')) / R i i) x n) =
        (k' :: ks).map (fun x => R i x * A x n) := by
      apply List.map_congr_left
      intro x hx
      have hxi : x ≠ i := by
        intro h; exact hk' (h ▸ hx)
      rw [updRow_ne _ _ _ _ _ hxi]
    rw [hmap]
    simp only [List.map_cons, List.sum_cons]
    ring_nf

/-- Later `backsubSpecAux` stages do not change already-assigned rows. -/
lemma backsubSpecAux_stable (R Z : ℕ → ℕ → ℝ) (K : ℕ) :
    ∀ (m' m : ℕ), m ≤ m' → m' ≤ K → ∀ r, K - m ≤ r → ∀ n,
      backsubSpecAux R Z K m' r n = backsubSpecAux R Z K m r n := by
  intro m'
  induction m' with
  | zero =>
    intro m hm _ r _ n
    interval_cases m
    rfl
  | succ m' ih =>
    intro m hm hK r hr n
    rcases Nat.eq_or_lt_of_le hm with h | h
    · rw [h]
    · have hm' : m ≤ m' := by omega
      have hrow : r ≠ K - (m' + 1) := by omega
      rw [backsubSpecAux, updRow_ne _ _ _ _ _ hrow, ih m hm' (by omega) r hr n]

/-- The textbook solution satisfies the back-substitution recurrence. -/
lemma backsubSpec_rec (R Z : ℕ → ℕ → ℝ) (K : ℕ) :
    ∀ i, i < K → ∀ n,
      backsubSpec R Z K i n =
        (Z i n - ∑ k in Finset.Ico (i + 1) K, R i k * backsubSpec R Z K k n) /
          R i i := by
  intro i hi n
  have hm : K - i - 1 + 1 ≤ K := by omega
  have hrow : K - (K - i - 1 + 1) = i := by omega
  have h1 : backsubSpec R Z K i n = backsubSpecAux R Z K (K - i - 1 + 1) i n := by
    exact backsubSpecAux_stable R Z K K (K - i - 1 + 1) hm le_rfl i (by omega) n
  rw [h1, backsubSpecAux, hrow, updRow_same]
  congr 1
  congr 1
  apply Finset.sum_congr rfl
  intro k hk
  have hk' : i + 1 ≤ k ∧ k < K := by
    have := Finset.mem_Ico.mp hk
    omega
  congr 1
  exact (backsubSpecAux_stable R Z K K (K - i - 1) (by omega) le_rfl k
    (by omega) n).symm

/-- One outer-loop step at row `i` turns a matrix that agrees with the
textbook solution on rows `(i, K)` into one that agrees on rows `[i, K)`. -/
lemma innerStep_spec (R Z : ℕ → ℕ → ℝ) (K : ℕ) (i : ℕ) (hi : i + 2 ≤ K)
    (A : ℕ → ℕ → ℝ)
    (hA : ∀ r, i + 1 ≤ r → r < K → ∀ n, A r n = backsubSpec R Z K r n) :
    ∀ r, i ≤ r → r < K → ∀ n,
      innerLoop R Z i (List.range' (i + 1) (K - (i + 1))) (fun _ => 0) A r n =
        backsubSpec R Z K r n := by
  intro r hir hrK n
  rcases Nat.eq_or_lt_of_le hir with h | h
  · subst h
    have hlist : List.range' (i + 1) (K - (i + 1)) =
        (i + 1) :: List.range' (i + 2) (K - (i + 2)) := by
      have h2 : K - (i + 1) = (K - (i + 2)) + 1 := by omega
      rw [h2, List.range'_succ (i + 1) (K - (i + 2)) 1]
    have hnot : i ∉ ((i + 1) :: List.range' (i + 2) (K - (i + 2))) := by
      intro hmem
      rcases List.mem_cons.mp hmem with h | h
      · omega
      · have := List.mem_range'_1.mp h
        omega
    rw [hlist, innerLoop_row R Z i _ _ _ A n hnot, ← hlist]
    have hsum : ((List.range' (i + 1) (K - (i + 1))).map
          (fun x => R i x * A x n)).sum =
        ∑ k in Finset.Ico (i + 1) K, R i k * backsubSpec R Z K k n := by
      rw [range'_map_sum]
      have h3 : i + 1 + (K - (i + 1)) = K := by omega
      rw [h3]
      apply Finset.sum_congr rfl
      intro k hk
      have hk' := Finset.mem_Ico.mp hk
      rw [hA k hk'.1 hk'.2 n]
    rw [hsum, zero_add, backsubSpec_rec R Z K i hrK n]
  · rw [innerLoop_ne R Z i _ _ A r (by omega) n]
    exact hA r h hrK n

/-- The descending outer loop computes the textbook solution on all rows
below its starting index, given agreement above it. -/
lemma outerLoop_inv (R Z : ℕ → ℕ → ℝ) (K : ℕ) :
    ∀ (i : ℕ), i + 2 ≤ K → ∀ (A : ℕ → ℕ → ℝ),
      (∀ r, i + 1 ≤ r → r < K → ∀ n, A r n = backsubSpec R Z K r n) →
      ∀ r, r < K → ∀ n,
        outerLoop R Z K ((List.range (i + 1)).reverse) A r n =
          backsubSpec R Z K r n := by
  intro i
  induction i with
  | zero =>
    intro h2 A hA r hrK n
    have hl : (List.range 1).reverse = [0] := by decide
    rw [hl, outerLoop_cons, outerLoop_nil]
    exact innerStep_spec R Z K 0 h2 A hA r (Nat.zero_le r) hrK n
  | succ i ih =>
    intro h2 A hA r hrK n
    have hl : (List.range (i + 2)).reverse = (i + 1) :: (List.range (i + 1)).reverse := by
      rw [List.range_succ, List.reverse_append]
      simp
    rw [hl, outerLoop_cons]
    exact ih (by omega) _
      (fun r' hr1 hr2 n' => innerStep_spec R Z K (i + 1) h2 A hA r' hr1 hr2 n')
      r hrK n

/-- The source's loop equals the textbook solution on all rows of the system. -/
lemma backsub_eq_spec (R Z : ℕ → ℕ → ℝ) (K : ℕ) (hK : 1 ≤ K) :
    ∀ r, r < K → ∀ n, backsub R Z K r n = backsubSpec R Z K r n := by
  intro r hrK n
  have hlast : ∀ n', updRow (fun _ _ => (0:ℝ)) (K - 1)
      (fun n'' => Z (K - 1) n'' / R (K - 1) (K - 1)) (K - 1) n' =
      backsubSpec R Z K (K - 1) n' := by
    intro n'
    rw [updRow_same, backsubSpec_rec R Z K (K - 1) (by omega) n']
    have : Finset.Ico (K - 1 + 1) K = ∅ := by
      apply Finset.Ico_eq_empty
      omega
    rw [this, Finset.sum_empty, sub_zero]
  rcases Nat.lt_or_ge K 2 with h2 | h2
  · have hK1 : K = 1 := by omega
    subst hK1
    have hr0 : r = 0 := by omega
    subst hr0
    have hl : (List.range (1 - 1)).reverse = ([] : List ℕ) := by decide
    rw [backsub, hl, outerLoop_nil]
    exact hlast n
  · have hKl : K - 2 + 1 = K - 1 := by omega
    have happ := outerLoop_inv R Z K (K - 2) (by omega)
      (updRow (fun _ _ => 0) (K - 1) (fun n'' => Z (K - 1) n'' / R (K - 1) (K - 1)))
      (by
        intro r' hr1 hr2 n'
        have hr' : r' = K - 1 := by omega
        subst hr'
        exact hlast n')
      r hrK n
    have hlist2 : (List.range (K - 1)).reverse = (List.range (K - 2 + 1)).reverse := by
      rw [hKl]
    rw [backsub, hlist2]
    exact happ

/-- C3: for an upper-triangular `K×K` matrix `R` with nonzero diagonal and any
right-hand side `Z`, the source's back-substitution loop — which reassigns row
`i` inside the inner accumulation loop — returns exactly the same matrix as
textbook back-substitution, and the textbook solution satisfies
`X[i,:] = (Z[i,:] − Σ_{k>i} R[i,k]·X[k,:]) / R[i,i]`. -/
theorem backsub_matches_textbook (R Z : ℕ → ℕ → ℝ) (K : ℕ) (hK : 1 ≤ K)
    (htri : ∀ a b, a < K → b < K → b < a → R a b = 0)
    (hdiag : ∀ a, a < K → R a a ≠ 0) :
    (∀ r, r < K → ∀ n, backsub R Z K r n = backsubSpec R Z K r n) ∧
    (∀ i, i < K → ∀ n,
      backsubSpec R Z K i n =
        (Z i n - ∑ k in Finset.Ico (i + 1) K, R i k * backsubSpec R Z K k n) /
          R i i) :=
  ⟨backsub_eq_spec R Z K hK, backsubSpec_rec R Z K⟩

/-- Witness for C3: the concrete `2×2` upper-triangular system with unit
diagonal and all-ones right-hand side. -/
theorem backsub_matches_textbook_witness :
    backsub (fun a b => if b < a then (0:ℝ) else 1) (fun _ _ => (1:ℝ)) 2 0 0 =
      backsubSpec (fun a b => if b < a then (0:ℝ) else 1) (fun _ _ => (1:ℝ)) 2 0 0 := by
  have h := backsub_matches_textbook (fun a b => if b < a then (0:ℝ) else 1)
    (fun _ _ => (1:ℝ)) 2 (by norm_num)
    (by intro a b _ _ hba; simp [hba])
    (by intro a _; norm_num)
  exact h.1 0 (by norm_num) 0

/-!
## The regularized linear solver (`_getDAS`)

`np.linalg.qr` is an external library routine; it is modelled by an oracle
parameter `qr` whose output `(Q, R)` the theorems constrain through the
routine's documented contract (reduced factorization with orthonormal columns
and upper-triangular `R`).
-/

/-- Matrix product with inner dimension `K` (`A.dot(B)`). -/
noncomputable def matMul (K : ℕ) (A B : ℕ → ℕ → ℝ) : ℕ → ℕ → ℝ :=
  fun i n => ∑ k in Finset.range K, A i k * B k n

/-- Matrix transpose (`np.transpose`). -/
def transposeM (A : ℕ → ℕ → ℝ) : ℕ → ℕ → ℝ := fun i j => A j i

/-- `np.concatenate((D, alpha**0.5 * np.identity(K)))`: `D` on rows `< M`,
`√α`-scaled identity below. -/
noncomputable def augD (D : ℕ → ℕ → ℝ) (M : ℕ) (alpha : ℝ) : ℕ → ℕ → ℝ :=
  fun i j => if i < M then D i j else if i - M = j then Real.sqrt alpha else 0

/-- `np.concatenate((Y, np.zeros([K, N])))`: `Y` on rows `< M`, zeros below. -/
def augY (Y : ℕ → ℕ → ℝ) (M : ℕ) : ℕ → ℕ → ℝ :=
  fun i n => if i < M then Y i n else 0

/-- Type of the `np.linalg.qr` oracle: matrix and its dimensions in,
`(Q, R)` out. -/
def QrOracle : Type :=
  (ℕ → ℕ → ℝ) → ℕ → ℕ → ((ℕ → ℕ → ℝ) × (ℕ → ℕ → ℝ))

/-- Embedding of `SVD_GA._getDAS(D, Y, alpha)` for a `M×K` matrix `D`: when
`alpha ≠ 0` augment `D` and `Y`, QR-factor the (possibly augmented) matrix,
form `Qᵗ·Y_aug` and back-substitute. -/
noncomputable def getDAS (qr : QrOracle) (D Y : ℕ → ℕ → ℝ) (M K : ℕ)
    (alpha : ℝ) : ℕ → ℕ → ℝ :=
  if alpha ≠ 0 then
    backsub ((qr (augD D M alpha) (M + K) K).2)
      (matMul (M + K) (transposeM ((qr (augD D M alpha) (M + K) K).1))
        (augY Y M)) K
  else
    backsub ((qr D M K).2) (matMul M (transposeM ((qr D M K).1)) Y) K

/-- The training residual `np.sum((Y - D.dot(DAS))**2)` computed by `_min`. -/
noncomputable def resid (D Y X : ℕ → ℕ → ℝ) (M K N : ℕ) : ℝ :=
  ∑ i in Finset.range M, ∑ n in Finset.range N, (Y i n - matMul K D X i n) ^ 2

/-- Squared Frobenius norm of a `K×N` matrix. -/
noncomputable def sqFrob (X : ℕ → ℕ → ℝ) (K N : ℕ) : ℝ :=
  ∑ j in Finset.range K, ∑ n in Finset.range N, (X j n) ^ 2

/-- The ridge objective `‖DX − Y‖² + α·‖X‖²` that `_getDAS` is meant to
minimize over `X`. -/
noncomputable def ridgeObj (D Y X : ℕ → ℕ → ℝ) (M K N : ℕ) (alpha : ℝ) : ℝ :=
  resid D Y X M K N + alpha * sqFrob X K N

/-- C6 (counterexample): with `α = 0` and the rank-deficient `2×1` matrix
`D = 0` — whose reduced QR has `Q = [1,0]ᵗ`, `R = [0]`, a zero pivot — the
claim "`_getDAS` fails with a SingularMatrixError" is false: the call returns
a matrix.  The pivot row is `QtY[0,:]/0`; real-number division by zero is
modelled as `0` (IEEE arithmetic makes it non-finite), and either way the
value is silently returned, not raised. -/
theorem getDAS_singular_value :
    getDAS (fun _ _ _ => ((fun i _ => if i = 0 then (1:ℝ) else 0), fun _ _ => 0))
      (fun _ _ => 0) (fun _ _ => 1) 2 1 0 0 0 = 0 := by
  norm_num [getDAS, backsub, List.range_zero, outerLoop_nil, updRow]

/-- C6 (amended): under zero regularization with a zero trailing pivot in
`R`, the solver raises nothing and still returns: the last solution row is
`Z[K-1,:]/0`, modelled by Lean's total division as the zero row (non-finite
and silently propagated in IEEE arithmetic).  No error path exists in
`_getDAS`. -/
theorem getDAS_singular_returns (qr : QrOracle) (D Y : ℕ → ℕ → ℝ) (M K : ℕ)
    (hK : 1 ≤ K) (hpivot : (qr D M K).2 (K - 1) (K - 1) = 0) :
    ∀ n, getDAS qr D Y M K 0 (K - 1) n = 0 := by
  intro n
  have h0 : getDAS qr D Y M K 0 =
      backsub ((qr D M K).2) (matMul M (transposeM ((qr D M K).1)) Y) K := by
    simp [getDAS]
  rw [h0, backsub_eq_spec _ _ K hK (K - 1) (by omega) n,
    backsubSpec_rec _ _ K (K - 1) (by omega) n, hpivot, div_zero]

/-- Witness for the amended C6, at the concrete singular instance. -/
theorem getDAS_singular_returns_witness :
    getDAS (fun _ _ _ => ((fun i _ => if i = 0 then (1:ℝ) else 0), fun _ _ => 0))
      (fun _ _ => 0) (fun _ _ => 3) 2 1 0 0 1 = 0 :=
  getDAS_singular_returns
    (fun _ _ _ => ((fun i _ => if i = 0 then (1:ℝ) else 0), fun _ _ => 0))
    (fun _ _ => 0) (fun _ _ => 3) 2 1 (by norm_num) rfl 1

/-!
## The ridge-minimizer property of `_getDAS`
-/

/-- Splitting a `range (M + K)` sum into the first `M` and the last `K`
indices. -/
lemma sum_range_split (f : ℕ → ℝ) (M : ℕ) :
    ∀ K : ℕ, ∑ i in Finset.range (M + K), f i =
      (∑ i in Finset.range M, f i) + ∑ r in Finset.range K, f (M + r) := by
  intro K
  induction K with
  | zero => simp
  | succ K ih =>
    have h1 : M + (K + 1) = (M + K) + 1 := by omega
    rw [h1, Finset.sum_range_succ, ih, Finset.sum_range_succ]
    ring

/-- Linearity of `matMul` in its right factor, entrywise. -/
lemma matMul_sub (K : ℕ) (A X Xs : ℕ → ℕ → ℝ) (i n : ℕ) :
    matMul K A X i n - matMul K A Xs i n =
      ∑ j in Finset.range K, A i j * (X j n - Xs j n) := by
  rw [matMul, matMul, ← Finset.sum_sub_distrib]
  apply Finset.sum_congr rfl
  intro j _
  ring

/-- Quadratic-expansion minimization: if the residual of `Xs` is orthogonal
to the column space of `A` (the normal equations hold), then `Xs` minimizes
the squared residual. -/
lemma min_of_normal (A Yv Xs : ℕ → ℕ → ℝ) (Mr K N : ℕ)
    (hNE : ∀ j, j < K → ∀ n, n < N →
      ∑ i in Finset.range Mr, A i j * (matMul K A Xs i n - Yv i n) = 0) :
    ∀ X, resid A Yv Xs Mr K N ≤ resid A Yv X Mr K N := by
  intro X
  have hEG : ∑ i in Finset.range Mr, ∑ n in Finset.range N,
      (matMul K A Xs i n - Yv i n) * (matMul K A X i n - matMul K A Xs i n)
      = 0 := by
    have hC : ∀ i n, (matMul K A Xs i n - Yv i n) *
        (matMul K A X i n - matMul K A Xs i n) =
        ∑ j in Finset.range K,
          (X j n - Xs j n) * (A i j * (matMul K A Xs i n - Yv i n)) := by
      intro i n
      rw [matMul_sub K A X Xs i n, Finset.mul_sum]
      apply Finset.sum_congr rfl
      intro j _
      ring
    calc ∑ i in Finset.range Mr, ∑ n in Finset.range N,
            (matMul K A Xs i n - Yv i n) *
              (matMul K A X i n - matMul K A Xs i n)
        = ∑ i in Finset.range Mr, ∑ n in Finset.range N,
            ∑ j in Finset.range K,
              (X j n - Xs j n) * (A i j * (matMul K A Xs i n - Yv i n)) := by
          apply Finset.sum_congr rfl
          intro i _
          apply Finset.sum_congr rfl
          intro n _
          exact hC i n
      _ = ∑ n in Finset.range N, ∑ i in Finset.range Mr,
            ∑ j in Finset.range K,
              (X j n - Xs j n) * (A i j * (matMul K A Xs i n - Yv i n)) :=
          Finset.sum_comm
      _ = ∑ n in Finset.range N, ∑ j in Finset.range K,
            ∑ i in Finset.range Mr,
              (X j n - Xs j n) * (A i j * (matMul K A Xs i n - Yv i n)) := by
          apply Finset.sum_congr rfl
          intro n _
          exact Finset.sum_comm
      _ = ∑ n in Finset.range N, ∑ j in Finset.range K,
            (X j n - Xs j n) *
              ∑ i in Finset.range Mr,
                A i j * (matMul K A Xs i n - Yv i n) := by
          apply Finset.sum_congr rfl
          intro n _
          apply Finset.sum_congr rfl
          intro j _
          rw [Finset.mul_sum]
      _ = 0 := by
          apply Finset.sum_eq_zero
          intro n hn
          apply Finset.sum_eq_zero
          intro j hj
          rw [hNE j (Finset.mem_range.mp hj) n (Finset.mem_range.mp hn),
            mul_zero]
  have hkey : resid A Yv X Mr K N = resid A Yv Xs Mr K N
      + (∑ i in Finset.range Mr, ∑ n in Finset.range N,
          (matMul K A X i n - matMul K A Xs i n) ^ 2)
      + 2 * (∑ i in Finset.range Mr, ∑ n in Finset.range N,
          (matMul K A Xs i n - Yv i n) *
            (matMul K A X i n - matMul K A Xs i n)) := by
    rw [resid, resid, Finset.mul_sum, ← Finset.sum_add_distrib,
      ← Finset.sum_add_distrib]
    apply Finset.sum_congr rfl
    intro i _
    rw [Finset.mul_sum, ← Finset.sum_add_distrib, ← Finset.sum_add_distrib]
    apply Finset.sum_congr rfl
    intro n _
    ring
  have hG : 0 ≤ ∑ i in Finset.range Mr, ∑ n in Finset.range N,
      (matMul K A X i n - matMul K A Xs i n) ^ 2 :=
    Finset.sum_nonneg (fun i _ => Finset.sum_nonneg (fun n _ => sq_nonneg _))
  rw [hkey, hEG]
  linarith

/-- The source's back-substitution loop solves `R·X = Z` rowwise, given an
upper-triangular `R` with nonzero diagonal. -/
lemma backsub_solves (R Z : ℕ → ℕ → ℝ) (K : ℕ) (hK : 1 ≤ K)
    (htri : ∀ a b, a < K → b < K → b < a → R a b = 0)
    (hdiag : ∀ a, a < K → R a a ≠ 0) :
    ∀ i, i < K → ∀ n,
      ∑ k in Finset.range K, R i k * backsub R Z K k n = Z i n := by
  intro i hi n
  have h1 : ∑ k in Finset.range K, R i k * backsub R Z K k n =
      ∑ k in Finset.range K, R i k * backsubSpec R Z K k n := by
    apply Finset.sum_congr rfl
    intro k hk
    rw [backsub_eq_spec R Z K hK k (Finset.mem_range.mp hk) n]
  rw [h1, Finset.range_eq_Ico,
    ← Finset.sum_Ico_consecutive (fun k => R i k * backsubSpec R Z K k n)
      (Nat.zero_le (i + 1)) hi,
    Finset.sum_Ico_succ_top (Nat.zero_le i)]
  have hzero : ∑ k in Finset.Ico 0 i, R i k * backsubSpec R Z K k n = 0 := by
    apply Finset.sum_eq_zero
    intro k hk
    have hk' := Finset.mem_Ico.mp hk
    rw [htri i k hi (by omega) (by omega), zero_mul]
  rw [hzero, zero_add, backsubSpec_rec R Z K i hi n, mul_comm,
    div_mul_cancel₀ _ (hdiag i hi)]
  ring

/-- A valid reduced QR factorization of `A` together with `R·Xs = Qᵗ·Yv`
yields the normal equations for `Xs`. -/
lemma normal_of_qr (A Q R Yv Xs : ℕ → ℕ → ℝ) (Mr K : ℕ)
    (hA : ∀ i, i < Mr → ∀ j, j < K → A i j = matMul K Q R i j)
    (hOrth : ∀ a, a < K → ∀ b, b < K →
      ∑ i in Finset.range Mr, Q i a * Q i b = if a = b then (1:ℝ) else 0)
    (hSolve : ∀ b, b < K → ∀ n,
      ∑ k in Finset.range K, R b k * Xs k n =
        matMul Mr (transposeM Q) Yv b n) :
    ∀ j, j < K → ∀ n,
      ∑ i in Finset.range Mr, A i j * (matMul K A Xs i n - Yv i n) = 0 := by
  intro j hj n
  have hAXs : ∀ i, i < Mr → matMul K A Xs i n =
      ∑ a in Finset.range K, Q i a * matMul Mr (transposeM Q) Yv a n := by
    intro i hiM
    calc matMul K A Xs i n
        = ∑ k in Finset.range K, (matMul K Q R i k) * Xs k n := by
          rw [matMul]
          apply Finset.sum_congr rfl
          intro k hk
          rw [hA i hiM k (Finset.mem_range.mp hk)]
      _ = ∑ k in Finset.range K, ∑ a in Finset.range K,
            Q i a * R a k * Xs k n := by
          apply Finset.sum_congr rfl
          intro k _
          rw [matMul, Finset.sum_mul]
      _ = ∑ a in Finset.range K, ∑ k in Finset.range K,
            Q i a * R a k * Xs k n := Finset.sum_comm
      _ = ∑ a in Finset.range K, Q i a *
            ∑ k in Finset.range K, R a k * Xs k n := by
          apply Finset.sum_congr rfl
          intro a _
          rw [Finset.mul_sum]
          apply Finset.sum_congr rfl
          intro k _
          ring
      _ = ∑ a in Finset.range K, Q i a *
            matMul Mr (transposeM Q) Yv a n := by
          apply Finset.sum_congr rfl
          intro a ha
          rw [hSolve a (Finset.mem_range.mp ha) n]
  have hQtY : ∀ a, matMul Mr (transposeM Q) Yv a n =
      ∑ i in Finset.range Mr, Q i a * Yv i n := by
    intro a
    rw [matMul]
    apply Finset.sum_congr rfl
    intro i _
    rw [transposeM]
  have hterm1 : ∑ i in Finset.range Mr, A i j * matMul K A Xs i n =
      ∑ c in Finset.range K, R c j * matMul Mr (transposeM Q) Yv c n := by
    calc ∑ i in Finset.range Mr, A i j * matMul K A Xs i n
        = ∑ i in Finset.range Mr, ∑ c in Finset.range K, ∑ a in Finset.range K,
            (R c j * matMul Mr (transposeM Q) Yv a n) * (Q i c * Q i a) := by
          apply Finset.sum_congr rfl
          intro i hi
          have hiM := Finset.mem_range.mp hi
          rw [hA i hiM j hj, hAXs i hiM, matMul, Finset.sum_mul]
          apply Finset.sum_congr rfl
          intro c _
          rw [Finset.mul_sum]
          apply Finset.sum_congr rfl
          intro a _
          ring
      _ = ∑ c in Finset.range K, ∑ a in Finset.range K,
            (R c j * matMul Mr (transposeM Q) Yv a n) *
              ∑ i in Finset.range Mr, Q i c * Q i a := by
          rw [Finset.sum_comm]
          apply Finset.sum_congr rfl
          intro c _
          rw [Finset.sum_comm]
          apply Finset.sum_congr rfl
          intro a _
          rw [Finset.mul_sum]
      _ = ∑ c in Finset.range K, ∑ a in Finset.range K,
            (R c j * matMul Mr (transposeM Q) Yv a n) *
              (if c = a then (1:ℝ) else 0) := by
          apply Finset.sum_congr rfl
          intro c hc
          apply Finset.sum_congr rfl
          intro a ha
          rw [hOrth c (Finset.mem_range.mp hc) a (Finset.mem_range.mp ha)]
      _ = ∑ c in Finset.range K, R c j * matMul Mr (transposeM Q) Yv c n := by
          apply Finset.sum_congr rfl
          intro c hc
          simp only [mul_ite, mul_one, mul_zero]
          rw [Finset.sum_ite_eq (Finset.range K) c
            (fun a => R c j * matMul Mr (transposeM Q) Yv a n)]
          simp [Finset.mem_range.mp hc]
  have hterm2 : ∑ i in Finset.range Mr, A i j * Yv i n =
      ∑ c in Finset.range K, R c j * matMul Mr (transposeM Q) Yv c n := by
    calc ∑ i in Finset.range Mr, A i j * Yv i n
        = ∑ i in Finset.range Mr, ∑ c in Finset.range K,
            R c j * (Q i c * Yv i n) := by
          apply Finset.sum_congr rfl
          intro i hi
          rw [hA i (Finset.mem_range.mp hi) j hj, matMul, Finset.sum_mul]
          apply Finset.sum_congr rfl
          intro c _
          ring
      _ = ∑ c in Finset.range K, ∑ i in Finset.range Mr,
            R c j * (Q i c * Yv i n) := Finset.sum_comm
      _ = ∑ c in Finset.range K, R c j * matMul Mr (transposeM Q) Yv c n := by
          apply Finset.sum_congr rfl
          intro c _
          rw [hQtY c, Finset.mul_sum]
  calc ∑ i in Finset.range Mr, A i j * (matMul K A Xs i n - Yv i n)
      = (∑ i in Finset.range Mr, A i j * matMul K A Xs i n) -
          ∑ i in Finset.range Mr, A i j * Yv i n := by
        rw [← Finset.sum_sub_distrib]
        apply Finset.sum_congr rfl
        intro i _
        ring
    _ = 0 := by rw [hterm1, hterm2, sub_self]

/-- The residual of the augmented system equals the ridge objective of the
original system: rows `< M` reproduce `‖DX − Y‖²` and the `K` stacked
`√α`-identity rows contribute `α·‖X‖²`. -/
lemma resid_aug (D Y X : ℕ → ℕ → ℝ) (M K N : ℕ) (alpha : ℝ) (hα : 0 ≤ alpha) :
    resid (augD D M alpha) (augY Y M) X (M + K) K N =
      resid D Y X M K N + alpha * sqFrob X K N := by
  rw [resid,
    sum_range_split
      (fun i => ∑ n in Finset.range N,
        (augY Y M i n - matMul K (augD D M alpha) X i n) ^ 2) M K]
  congr 1
  · rw [resid]
    apply Finset.sum_congr rfl
    intro i hi
    have hiM := Finset.mem_range.mp hi
    apply Finset.sum_congr rfl
    intro n _
    have hY : augY Y M i n = Y i n := by
      rw [augY]
      simp [hiM]
    have hD : matMul K (augD D M alpha) X i n = matMul K D X i n := by
      rw [matMul, matMul]
      apply Finset.sum_congr rfl
      intro k _
      rw [augD]
      simp [hiM]
    rw [hY, hD]
  · rw [sqFrob, Finset.mul_sum]
    apply Finset.sum_congr rfl
    intro r hr
    have hrK := Finset.mem_range.mp hr
    rw [Finset.mul_sum]
    apply Finset.sum_congr rfl
    intro n _
    have hY : augY Y M (M + r) n = 0 := by
      rw [augY]
      simp
    have hD : matMul K (augD D M alpha) X (M + r) n =
        Real.sqrt alpha * X r n := by
      rw [matMul]
      have hentry : ∀ k, augD D M alpha (M + r) k =
          if r = k then Real.sqrt alpha else 0 := by
        intro k
        rw [augD]
        simp
      calc ∑ k in Finset.range K, augD D M alpha (M + r) k * X k n
          = ∑ k in Finset.range K,
              (if r = k then Real.sqrt alpha * X k n else 0) := by
            apply Finset.sum_congr rfl
            intro k _
            rw [hentry k]
            by_cases h : r = k
            · simp [h]
            · simp [h]
        _ = Real.sqrt alpha * X r n := by
            rw [Finset.sum_ite_eq (Finset.range K) r
              (fun k => Real.sqrt alpha * X k n)]
            simp [hrK]
    rw [hY, hD]
    have hsq : Real.sqrt alpha * Real.sqrt alpha = alpha :=
      Real.mul_self_sqrt hα
    nlinarith [hsq]

/-- Unified minimizer property of `_getDAS`: under the `np.linalg.qr`
contract for the matrix the solver actually factors (the augmented matrix
when `α ≠ 0`, the plain `D` when `α = 0`), the returned matrix minimizes the
ridge objective `‖DX − Y‖² + α·‖X‖²`. -/
lemma getDAS_minimizes (qr : QrOracle) (D Y Q R : ℕ → ℕ → ℝ) (M K N : ℕ)
    (alpha : ℝ) (hK : 1 ≤ K) (hα : 0 ≤ alpha)
    (hqr : qr (if alpha ≠ 0 then augD D M alpha else D)
      (if alpha ≠ 0 then M + K else M) K = (Q, R))
    (hQR : ∀ i, i < (if alpha ≠ 0 then M + K else M) → ∀ j, j < K →
      (if alpha ≠ 0 then augD D M alpha else D) i j = matMul K Q R i j)
    (hOrth : ∀ a, a < K → ∀ b, b < K →
      ∑ i in Finset.range (if alpha ≠ 0 then M + K else M), Q i a * Q i b =
        if a = b then (1:ℝ) else 0)
    (htri : ∀ a b, a < K → b < K → b < a → R a b = 0)
    (hdiag : ∀ a, a < K → R a a ≠ 0) :
    ∀ X, ridgeObj D Y (getDAS qr D Y M K alpha) M K N alpha ≤
      ridgeObj D Y X M K N alpha := by
  intro X
  by_cases h0 : alpha = 0
  · subst h0
    simp only [ne_eq, not_true_eq_false, if_false, ite_false] at hqr hQR hOrth
    have hgd : getDAS qr D Y M K 0 =
        backsub R (matMul M (transposeM Q) Y) K := by
      rw [getDAS]
      simp [hqr]
    have hNE := normal_of_qr D Q R Y (backsub R (matMul M (transposeM Q) Y) K)
      M K hQR hOrth
      (fun b hb n => backsub_solves R (matMul M (transposeM Q) Y) K hK htri
        hdiag b hb n)
    have hmin := min_of_normal D Y (backsub R (matMul M (transposeM Q) Y) K)
      M K N (fun j hj n _ => hNE j hj n) X
    rw [ridgeObj, ridgeObj, hgd]
    simp only [zero_mul, add_zero]
    exact hmin
  · simp only [ne_eq, h0, not_false_iff, if_true, ite_true] at hqr hQR hOrth
    have hgd : getDAS qr D Y M K alpha =
        backsub R (matMul (M + K) (transposeM Q) (augY Y M)) K := by
      rw [getDAS]
      simp [h0, hqr]
    have hNE := normal_of_qr (augD D M alpha) Q R (augY Y M)
      (backsub R (matMul (M + K) (transposeM Q) (augY Y M)) K)
      (M + K) K hQR hOrth
      (fun b hb n => backsub_solves R
        (matMul (M + K) (transposeM Q) (augY Y M)) K hK htri hdiag b hb n)
    have hmin := min_of_normal (augD D M alpha) (augY Y M)
      (backsub R (matMul (M + K) (transposeM Q) (augY Y M)) K)
      (M + K) K N (fun j hj n _ => hNE j hj n) X
    rw [ridgeObj, ridgeObj, hgd, ← resid_aug D Y _ M K N alpha hα,
      ← resid_aug D Y X M K N alpha hα]
    exact hmin

/-- C2: for `α > 0` the solver stacks `√α·I(K)` beneath `D` (`augD`) and a
`K×N` zero block beneath `Y` (`augY`, both inside `getDAS`), QR-factors the
augmented matrix, and the returned `K×N` matrix is the exact minimizer of
`‖DX − Y‖² + α‖X‖²` whenever the factorization satisfies the `np.linalg.qr`
contract (`Q·R` reproduces the augmented matrix, `Q` has orthonormal columns,
`R` is upper triangular) and `R` has no zero diagonal entries (exact
arithmetic). -/
theorem getDAS_ridge_minimizer (qr : QrOracle) (D Y Q R : ℕ → ℕ → ℝ)
    (M K N : ℕ) (alpha : ℝ) (hK : 1 ≤ K) (hα : 0 < alpha)
    (hqr : qr (augD D M alpha) (M + K) K = (Q, R))
    (hQR : ∀ i, i < M + K → ∀ j, j < K →
      augD D M alpha i j = matMul K Q R i j)
    (hOrth : ∀ a, a < K → ∀ b, b < K →
      ∑ i in Finset.range (M + K), Q i a * Q i b =
        if a = b then (1:ℝ) else 0)
    (htri : ∀ a b, a < K → b < K → b < a → R a b = 0)
    (hdiag : ∀ a, a < K → R a a ≠ 0) :
    ∀ X, ridgeObj D Y (getDAS qr D Y M K alpha) M K N alpha ≤
      ridgeObj D Y X M K N alpha := by
  have hne : alpha ≠ 0 := ne_of_gt hα
  apply getDAS_minimizes qr D Y Q R M K N alpha hK (le_of_lt hα)
  · simpa [hne] using hqr
  · simpa [hne] using hQR
  · simpa [hne] using hOrth
  · exact htri
  · exact hdiag

/-- Witness for C2: `M = K = N = 1`, `D = Y = [1]`, `α = 1`; the augmented
matrix `[1, 1]ᵗ` has the reduced QR factorization
`Q = [1/√2, 1/√2]ᵗ`, `R = [√2]`, and the solver's output beats `X = 0`. -/
theorem getDAS_ridge_minimizer_witness :
    ridgeObj (fun _ _ => (1:ℝ)) (fun _ _ => 1)
      (getDAS
        (fun _ _ _ => ((fun _ _ => 1 / Real.sqrt 2),
          fun a b => if b < a then (0:ℝ) else Real.sqrt 2))
        (fun _ _ => 1) (fun _ _ => 1) 1 1 1) 1 1 1 1 ≤
    ridgeObj (fun _ _ => (1:ℝ)) (fun _ _ => 1) (fun _ _ => 0) 1 1 1 1 := by
  have hs2 : Real.sqrt 2 * Real.sqrt 2 = 2 := Real.mul_self_sqrt (by norm_num)
  have hne : Real.sqrt 2 ≠ 0 := by positivity
  apply getDAS_ridge_minimizer
    (fun _ _ _ => ((fun _ _ => 1 / Real.sqrt 2),
      fun a b => if b < a then (0:ℝ) else Real.sqrt 2))
    (fun _ _ => 1) (fun _ _ => 1)
    (fun _ _ => 1 / Real.sqrt 2)
    (fun a b => if b < a then (0:ℝ) else Real.sqrt 2)
    1 1 1 1 (by norm_num) (by norm_num) rfl
  · intro i hi j hj
    interval_cases j
    interval_cases i
    · simp [augD, matMul, Finset.sum_range_one]
    · simp [augD, matMul, Finset.sum_range_one, Real.sqrt_one]
  · intro a ha b hb
    interval_cases a
    interval_cases b
    simp [Finset.sum_range_succ]
    rw [← mul_inv, hs2]
    norm_num
  · intro a b _ _ hba
    simp [hba]
  · intro a ha
    interval_cases a
    simp [hne]

/-- C8: for fixed `D` and `Y` and ridge weights `0 ≤ α1 < α2`, the training
residual `Σ(Y − D·X(α))²` computed by the objective is monotone: the residual
of the `α2`-regularized solution is at least the residual of the
`α1`-regularized solution.  `X(α)` is the solver's output, constrained by the
`np.linalg.qr` contract on whichever matrix the solver factors for that `α`
(the plain `D` when `α = 0`, the augmented matrix otherwise). -/
theorem resid_monotone_in_alpha (qr : QrOracle) (D Y Q1 R1 Q2 R2 : ℕ → ℕ → ℝ)
    (M K N : ℕ) (a1 a2 : ℝ) (hK : 1 ≤ K) (h0 : 0 ≤ a1) (h12 : a1 < a2)
    (hqr1 : qr (if a1 ≠ 0 then augD D M a1 else D)
      (if a1 ≠ 0 then M + K else M) K = (Q1, R1))
    (hQR1 : ∀ i, i < (if a1 ≠ 0 then M + K else M) → ∀ j, j < K →
      (if a1 ≠ 0 then augD D M a1 else D) i j = matMul K Q1 R1 i j)
    (hOrth1 : ∀ a, a < K → ∀ b, b < K →
      ∑ i in Finset.range (if a1 ≠ 0 then M + K else M), Q1 i a * Q1 i b =
        if a = b then (1:ℝ) else 0)
    (htri1 : ∀ a b, a < K → b < K → b < a → R1 a b = 0)
    (hdiag1 : ∀ a, a < K → R1 a a ≠ 0)
    (hqr2 : qr (augD D M a2) (M + K) K = (Q2, R2))
    (hQR2 : ∀ i, i < M + K → ∀ j, j < K →
      augD D M a2 i j = matMul K Q2 R2 i j)
    (hOrth2 : ∀ a, a < K → ∀ b, b < K →
      ∑ i in Finset.range (M + K), Q2 i a * Q2 i b =
        if a = b then (1:ℝ) else 0)
    (htri2 : ∀ a b, a < K → b < K → b < a → R2 a b = 0)
    (hdiag2 : ∀ a, a < K → R2 a a ≠ 0) :
    resid D Y (getDAS qr D Y M K a1) M K N ≤
      resid D Y (getDAS qr D Y M K a2) M K N := by
  have ha2pos : 0 < a2 := lt_of_le_of_lt h0 h12
  have ha2 : a2 ≠ 0 := ne_of_gt ha2pos
  have m1 := getDAS_minimizes qr D Y Q1 R1 M K N a1 hK h0 hqr1 hQR1 hOrth1
    htri1 hdiag1 (getDAS qr D Y M K a2)
  have m2 := getDAS_minimizes qr D Y Q2 R2 M K N a2 hK (le_of_lt ha2pos)
    (by simpa [ha2] using hqr2) (by simpa [ha2] using hQR2)
    (by simpa [ha2] using hOrth2) htri2 hdiag2 (getDAS qr D Y M K a1)
  simp only [ridgeObj] at m1 m2
  have hs : sqFrob (getDAS qr D Y M K a2) K N ≤
      sqFrob (getDAS qr D Y M K a1) K N := by
    by_contra hcon
    push_neg at hcon
    have hp : 0 < (a2 - a1) *
        (sqFrob (getDAS qr D Y M K a2) K N -
          sqFrob (getDAS qr D Y M K a1) K N) :=
      mul_pos (by linarith) (by linarith)
    nlinarith [m1, m2]
  nlinarith [m1, mul_nonneg h0 (sub_nonneg.mpr hs)]

/-- Witness for C8: `M = K = N = 1`, `D = Y = [1]`, `α1 = 0`, `α2 = 1`.  The
QR oracle returns `([1],[1])` for the unaugmented `1×1` system and the
`[1/√2, 1/√2]ᵗ·[√2]` factorization for the augmented `2×1` system. -/
theorem resid_monotone_in_alpha_witness :
    resid (fun _ _ => (1:ℝ)) (fun _ _ => 1)
      (getDAS
        (fun _ rows _ => if rows = 1
          then ((fun _ _ => (1:ℝ)), fun _ _ => (1:ℝ))
          else ((fun _ _ => 1 / Real.sqrt 2),
            fun a b => if b < a then (0:ℝ) else Real.sqrt 2))
        (fun _ _ => 1) (fun _ _ => 1) 1 1 0) 1 1 1 ≤
    resid (fun _ _ => (1:ℝ)) (fun _ _ => 1)
      (getDAS
        (fun _ rows _ => if rows = 1
          then ((fun _ _ => (1:ℝ)), fun _ _ => (1:ℝ))
          else ((fun _ _ => 1 / Real.sqrt 2),
            fun a b => if b < a then (0:ℝ) else Real.sqrt 2))
        (fun _ _ => 1) (fun _ _ => 1) 1 1 1) 1 1 1 := by
  have hs2 : Real.sqrt 2 * Real.sqrt 2 = 2 := Real.mul_self_sqrt (by norm_num)
  have hne : Real.sqrt 2 ≠ 0 := by positivity
  apply resid_monotone_in_alpha
    (fun _ rows _ => if rows = 1
      then ((fun _ _ => (1:ℝ)), fun _ _ => (1:ℝ))
      else ((fun _ _ => 1 / Real.sqrt 2),
        fun a b => if b < a then (0:ℝ) else Real.sqrt 2))
    (fun _ _ => 1) (fun _ _ => 1)
    (fun _ _ => 1) (fun _ _ => 1)
    (fun _ _ => 1 / Real.sqrt 2)
    (fun a b => if b < a then (0:ℝ) else Real.sqrt 2)
    1 1 1 0 1 (by norm_num) (by norm_num) (by norm_num)
  · norm_num
  · intro i hi j hj
    have hi' : i = 0 := by
      have h1 : i < 1 := by simpa using hi
      omega
    have hj' : j = 0 := by omega
    subst hi'
    subst hj'
    simp [matMul, Finset.sum_range_one]
  · intro a ha b hb
    interval_cases a
    interval_cases b
    norm_num [Finset.sum_range_one]
  · intro a b ha hb hba
    exact absurd hba (by omega)
  · intro a ha
    interval_cases a
    norm_num
  · norm_num
  · intro i hi j hj
    interval_cases j
    interval_cases i
    · simp [augD, matMul, Finset.sum_range_one]
    · simp [augD, matMul, Finset.sum_range_one, Real.sqrt_one]
  · intro a ha b hb
    interval_cases a
    interval_cases b
    simp [Finset.sum_range_succ]
    rw [← mul_inv, hs2]
    norm_num
  · intro a b _ _ hba
    simp [hba]
  · intro a ha
    interval_cases a
    simp [hne]

/-!
## The objective, optimizer driver and `Global` (`_min`, `_GA`, `Global`)

`scipy.optimize.minimize` is external; it is modelled by an oracle whose only
contract, documented by scipy, is that `result.x` has the shape of `x0`.  The
plotting calls inside `Global` do not affect the returned value and have no
counterpart in the embedding.
-/

/-- Type of the `scipy.optimize.minimize` oracle: objective, initial guess
and bounds in, optimal parameter vector out. -/
def MinimizeOracle : Type :=
  (List ℝ → ℝ) → List ℝ → List (ℝ × ℝ) → List ℝ

/-- Embedding of `SVD_GA._min(taus, Y, T, alpha, fit_irf)`: build the decay
matrix, solve for the amplitudes, return `np.sum((Y - D.dot(DAS))**2)`. -/
noncomputable def minObj (qr : QrOracle) (FWHM_mod : ℝ) (taus : List ℝ)
    (Y : ℕ → ℕ → ℝ) (N : ℕ) (T : List ℝ) (alpha : ℝ) (fit_irf : Bool) : ℝ :=
  resid (genD FWHM_mod taus T fit_irf).1 Y
    (getDAS qr (genD FWHM_mod taus T fit_irf).1 Y
      (genD FWHM_mod taus T fit_irf).2.1 (genD FWHM_mod taus T fit_irf).2.2
      alpha)
    (genD FWHM_mod taus T fit_irf).2.1 (genD FWHM_mod taus T fit_irf).2.2 N

/-- Embedding of `SVD_GA._GA`: run the bounded optimizer on the objective,
rebuild `D` and `DAS` at the optimum, return `(taus, DAS, D.dot(DAS))`. -/
noncomputable def GA (optimizer : MinimizeOracle) (qr : QrOracle)
    (FWHM_mod : ℝ) (x0 : List ℝ) (Y : ℕ → ℕ → ℝ) (N : ℕ) (T : List ℝ)
    (alpha : ℝ) (B : List (ℝ × ℝ)) (fit_irf : Bool) :
    List ℝ × (ℕ → ℕ → ℝ) × (ℕ → ℕ → ℝ) :=
  let taus := optimizer
    (fun ts => minObj qr FWHM_mod ts Y N T alpha fit_irf) x0 B
  let Dg := genD FWHM_mod taus T fit_irf
  let DAS := getDAS qr Dg.1 Y Dg.2.1 Dg.2.2 alpha
  (taus, DAS, matMul Dg.2.2 Dg.1 DAS)

/-- Embedding of `SVD_GA.Global`: resolve the selector, run `_GA` on the
selected columns and, when the IRF width is fitted, split the result into
`(taus[:-1], fwhm = taus[-1])`; otherwise return the full `taus`. -/
noncomputable def Global (optimizer : MinimizeOracle) (qr : QrOracle)
    (FWHM_mod : ℝ) (wLSV : ℕ → ℕ → ℝ) (T : List ℝ) (wLSVs : List ℕ)
    (x0 : List ℝ) (B : List (ℝ × ℝ)) (alpha : ℝ) (fit_irf : Bool) :
    (List ℝ × ℝ) ⊕ List ℝ :=
  let sel := get_wLSVs_for_fit wLSV wLSVs
  let res := GA optimizer qr FWHM_mod x0 sel.2.1 sel.2.2 T alpha B fit_irf
  if fit_irf then Sum.inl (res.1.dropLast, res.1.getLastD 0)
  else Sum.inr res.1

/-- C7: with width-fitting enabled and a parameter vector of length `K+1`,
`Global` returns the first `K` optimizer outputs as lifetimes together with a
separate fitted-width scalar taken from the last output entry, and every
decay matrix built during the fit (all are `genD` applied to length-`K+1`
parameter vectors, by the optimizer's shape contract) has exactly `K`
columns, never `K+1`. -/
theorem global_width_fitting (optimizer : MinimizeOracle) (qr : QrOracle)
    (FWHM_mod : ℝ) (wLSV : ℕ → ℕ → ℝ) (T : List ℝ) (wLSVs : List ℕ)
    (x0 : List ℝ) (B : List (ℝ × ℝ)) (alpha : ℝ) (K : ℕ)
    (hopt : ∀ f x B', (optimizer f x B').length = x.length)
    (hx0 : x0.length = K + 1) :
    (Global optimizer qr FWHM_mod wLSV T wLSVs x0 B alpha true =
      Sum.inl ((optimizer (fun ts => minObj qr FWHM_mod ts
          (get_wLSVs_for_fit wLSV wLSVs).2.1
          (get_wLSVs_for_fit wLSV wLSVs).2.2 T alpha true) x0 B).dropLast,
        (optimizer (fun ts => minObj qr FWHM_mod ts
          (get_wLSVs_for_fit wLSV wLSVs).2.1
          (get_wLSVs_for_fit wLSV wLSVs).2.2 T alpha true) x0 B).getLastD 0)) ∧
    ((optimizer (fun ts => minObj qr FWHM_mod ts
        (get_wLSVs_for_fit wLSV wLSVs).2.1
        (get_wLSVs_for_fit wLSV wLSVs).2.2 T alpha true) x0 B).dropLast.length
      = K) ∧
    (∀ ts : List ℝ, ts.length = K + 1 → (genD FWHM_mod ts T true).2.2 = K) := by
  refine ⟨rfl, ?_, ?_⟩
  · rw [List.length_dropLast, hopt, hx0]
    omega
  · intro ts hts
    simp [genD, hts]

/-- Witness for C7: identity optimizer, `x0 = [5, 1]` (`K = 1`): the fit
returns lifetimes `[5]` and fitted width `1`. -/
theorem global_width_fitting_witness :
    Global (fun _ x _ => x)
      (fun _ _ _ => ((fun _ _ => (0:ℝ)), fun _ _ => 0))
      0 (fun _ _ => 0) [(0:ℝ)] [] [(5:ℝ), 1] [] 0 true =
      Sum.inl ([(5:ℝ)], (1:ℝ)) := by
  have h := global_width_fitting (fun _ x _ => x)
    (fun _ _ _ => ((fun _ _ => (0:ℝ)), fun _ _ => 0))
    0 (fun _ _ => 0) [(0:ℝ)] [] [(5:ℝ), 1] [] 0 1
    (fun _ _ _ => rfl) rfl
  rw [h.1]
  rfl

end PyLDM
